import Mathlib

/-!
Shallow embedding of `manager.go` from the `empire` repository: the
reconciliation manager that expands a Formation into Jobs, schedules and
unschedules them against a cluster scheduler, and merges tracked jobs with
scheduler-reported state.

Strings are modelled as lists of character codes (`List Nat`), so that the
dot-separated job-name format of `newJobName` (`fmt.Sprintf("%s.%d.%s.%d", ...)`)
becomes concatenation over code lists: `46` is `'.'`, `45` is `'-'`,
`48`..`57` are the decimal digits. Go `int` values (release versions,
quantities, instance indices) are modelled as `Int`.
-/

/-- Character-code strings: the model of Go `string`. -/
abbrev Str := List Nat

/-- Decimal digit expansion with explicit fuel, little-endian recursion on
`n / 10`, most significant digit first — the model of `fmt`'s `%d` rendering
of a natural number. With fuel `> n` the fuel never runs out. -/
def natDigitsAux : Nat → Nat → List Nat
  | 0, _ => []
  | fuel + 1, n => if n < 10 then [48 + n] else natDigitsAux fuel (n / 10) ++ [48 + n % 10]

/-- Decimal digit codes of a natural number (`%d` for `n ≥ 0`). -/
def natDigits (n : Nat) : List Nat :=
  natDigitsAux (n + 1) n

/-- Value of a digit-code list read back as a decimal number. -/
def natVal (l : List Nat) : Nat :=
  l.foldl (fun a c => 10 * a + (c - 48)) 0

/-- The model of `fmt`'s `%d` on a Go `int`: minus sign then digits for
negatives, digits alone otherwise. -/
def intChars (i : Int) : List Nat :=
  if i < 0 then 45 :: natDigits i.natAbs else natDigits i.toNat

theorem natVal_append_digit (l : List Nat) (c : Nat) :
    natVal (l ++ [c]) = 10 * natVal l + (c - 48) := by
  unfold natVal
  rw [List.foldl_append]
  rfl

theorem natVal_natDigitsAux : ∀ fuel n, n < fuel → natVal (natDigitsAux fuel n) = n := by
  intro fuel
  induction fuel with
  | zero => intro n h; omega
  | succ f ih =>
    intro n h
    unfold natDigitsAux
    by_cases h10 : n < 10
    · simp only [h10, if_true]
      unfold natVal
      simp only [List.foldl_cons, List.foldl_nil]
      omega
    · simp only [h10, if_false]
      have hd : n / 10 < f := by
        have h1 : n / 10 < n := Nat.div_lt_self (by omega) (by omega)
        omega
      rw [natVal_append_digit, ih (n / 10) hd]
      omega

theorem natVal_natDigits (n : Nat) : natVal (natDigits n) = n :=
  natVal_natDigitsAux (n + 1) n (Nat.lt_succ_self n)

theorem natDigits_injective (a b : Nat) (h : natDigits a = natDigits b) : a = b := by
  have ha := natVal_natDigits a
  have hb := natVal_natDigits b
  rw [h] at ha
  omega

theorem mem_natDigitsAux : ∀ fuel n c, n < fuel → c ∈ natDigitsAux fuel n →
    48 ≤ c ∧ c ≤ 57 := by
  intro fuel
  induction fuel with
  | zero => intro n c h; omega
  | succ f ih =>
    intro n c h hc
    unfold natDigitsAux at hc
    by_cases h10 : n < 10
    · simp only [h10, if_true, List.mem_singleton] at hc
      omega
    · simp only [h10, if_false, List.mem_append, List.mem_singleton] at hc
      rcases hc with hc | hc
      · exact ih (n / 10) c (by
          have h1 : n / 10 < n := Nat.div_lt_self (by omega) (by omega)
          omega) hc
      · have := @Nat.mod_lt n 10 (by omega)
        omega

theorem mem_natDigits (n c : Nat) (hc : c ∈ natDigits n) : 48 ≤ c ∧ c ≤ 57 :=
  mem_natDigitsAux (n + 1) n c (Nat.lt_succ_self n) hc

theorem natDigits_ne_nil (n : Nat) : natDigits n ≠ [] := by
  unfold natDigits natDigitsAux
  by_cases h10 : n < 10 <;> simp [h10]

theorem intChars_not_dot (i : Int) : 46 ∉ intChars i := by
  unfold intChars
  by_cases hneg : i < 0
  · simp only [hneg, if_true, List.mem_cons]
    intro h
    rcases h with h | h
    · omega
    · have := mem_natDigits _ _ h
      omega
  · simp only [hneg, if_false]
    intro h
    have := mem_natDigits _ _ h
    omega

theorem intChars_injective (a b : Int) (h : intChars a = intChars b) : a = b := by
  unfold intChars at h
  by_cases hA : a < 0 <;> by_cases hB : b < 0
  · simp only [hA, hB, if_true, List.cons.injEq, true_and] at h
    have := natDigits_injective _ _ h
    omega
  · simp only [hA, hB, if_true, if_false] at h
    obtain ⟨c, l, hcl⟩ : ∃ c l, natDigits b.toNat = c :: l := by
      cases hd : natDigits b.toNat with
      | nil => exact absurd hd (natDigits_ne_nil _)
      | cons c l => exact ⟨c, l, rfl⟩
    rw [hcl] at h
    have hmem : c ∈ natDigits b.toNat := by rw [hcl]; exact List.mem_cons_self c l
    have := mem_natDigits _ _ hmem
    have hc45 : c = 45 := by
      have := List.cons.inj h
      omega
    omega
  · simp only [hA, hB, if_false, if_true] at h
    obtain ⟨c, l, hcl⟩ : ∃ c l, natDigits a.toNat = c :: l := by
      cases hd : natDigits a.toNat with
      | nil => exact absurd hd (natDigits_ne_nil _)
      | cons c l => exact ⟨c, l, rfl⟩
    rw [hcl] at h
    have hmem : c ∈ natDigits a.toNat := by rw [hcl]; exact List.mem_cons_self c l
    have := mem_natDigits _ _ hmem
    have hc45 : c = 45 := by
      have := List.cons.inj h
      omega
    omega
  · simp only [hA, hB, if_false] at h
    have := natDigits_injective _ _ h
    omega

theorem dot_split : ∀ (a b x y : List Nat), 46 ∉ a → 46 ∉ b →
    a ++ 46 :: x = b ++ 46 :: y → a = b ∧ x = y := by
  intro a
  induction a with
  | nil =>
    intro b x y _ hb h
    cases b with
    | nil =>
      simp only [List.nil_append, List.cons.injEq, true_and] at h
      exact ⟨rfl, h⟩
    | cons c bs =>
      simp only [List.nil_append, List.cons_append, List.cons.injEq] at h
      exact absurd (h.1 ▸ List.mem_cons_self c bs) hb
  | cons c as ih =>
    intro b x y ha hb h
    cases b with
    | nil =>
      simp only [List.cons_append, List.nil_append, List.cons.injEq] at h
      exact absurd (h.1 ▸ List.mem_cons_self c as) (h.1 ▸ ha)
    | cons d bs =>
      simp only [List.cons_append, List.cons.injEq] at h
      have ha' : 46 ∉ as := fun hm => ha (List.mem_cons_of_mem c hm)
      have hb' : 46 ∉ bs := fun hm => hb (List.mem_cons_of_mem d hm)
      obtain ⟨h1, h2⟩ := ih bs x y ha' hb' h.2
      exact ⟨by rw [h.1, h1], h2⟩

/-- The model of `newJobName` (`manager.go:237`):
`fmt.Sprintf("%s.%d.%s.%d", name, v, t, i)` as concatenation of code lists
with `46 = '.'` separators. -/
def newJobName (name : Str) (v : Int) (t : Str) (i : Int) : Str :=
  name ++ 46 :: (intChars v ++ 46 :: (t ++ 46 :: intChars i))

/-- The model of `Image` (repository identifier + content identifier). -/
structure ImageT where
  Repo : Str
  ID : Str
deriving DecidableEq

/-- The model of `Process`: a command line and a desired instance quantity. -/
structure Process where
  Command : Str
  Quantity : Int
deriving DecidableEq

/-- Configuration variables (`Vars`): a mapping from name to value. -/
abbrev Vars := List (Str × Str)

/-- The model of `Formation`: a map from process type to `Process`, as an
association list (Go map iteration order is not fixed; the claims proved here
do not depend on the entry order). -/
abbrev Formation := List (Str × Process)

/-- The model of `ProcessQuantityMap`: process type to desired quantity. -/
abbrev ProcessQuantityMap := List (Str × Int)

/-- The model of `Release`: application name and version. -/
structure Release where
  AppName : Str
  Ver : Int
deriving DecidableEq

/-- The model of `Config`: configuration variables of a release. -/
structure Config where
  Vars : Vars
deriving DecidableEq

/-- The model of `Slug`: the image reference of a release. -/
structure Slug where
  Image : ImageT
deriving DecidableEq

/-- The model of `App`. -/
structure App where
  Name : Str
deriving DecidableEq

/-- The model of `scheduler.Execute`: command plus image. -/
structure SchedExecute where
  Command : Str
  Image : ImageT
deriving DecidableEq

/-- The model of `scheduler.Job`: what `schedule` submits to the cluster. -/
structure SchedJob where
  Name : Str
  Environment : Vars
  Execute : SchedExecute
deriving DecidableEq

/-- The model of `scheduler.JobState`: one entry of the scheduler's live
snapshot. -/
structure SchedJobState where
  Name : Str
  MachineID : Str
  State : Str
deriving DecidableEq

/-- The model of `Job` (`manager.go` uses its fields at lines 147-155). -/
structure Job where
  AppName : Str
  ReleaseVersion : Int
  ProcessType : Str
  Instance : Int
  Environment : Vars
  Image : ImageT
  Command : Str
deriving DecidableEq

/-- The model of `JobState`: the read-only join built by `JobStatesByApp`. -/
structure JobState where
  Job : Job
  Name : Str
  MachineID : Str
  State : Str
deriving DecidableEq

/-- Errors: opaque collaborator errors (injected by the environment) and the
`fmt.Errorf("Job not found to unschedule: %s", jobName)` error of
`manager.go:183`, which carries the missing job name. -/
inductive Err where
  | injected (code : Nat)
  | jobNotFound (name : Str)
deriving DecidableEq

/-- One external collaborator call, as recorded in the call trace. -/
inductive Ev where
  | schedule (sj : SchedJob)
  | unschedule (name : Str)
  | jobStates
  | repoList (app : Str)
  | repoAdd (j : Job)
  | repoRemove (j : Job)
  | procUpdate (t : Str) (p : Process)
deriving DecidableEq

/-- The world state threaded through the manager: the cluster scheduler's
accepted jobs, the Job Repository's tracked jobs, the Process Repository's
stored quantities, and the trace of collaborator calls made so far. -/
structure St where
  cluster : List SchedJob
  tracked : List Job
  procs : List (Str × Int)
  trace : List Ev
deriving DecidableEq

/-- The collaborator environment: decides which calls fail (returning the
injected error) and what data the scheduler's `JobStates` snapshot holds. -/
structure Env where
  schedErr : SchedJob → Option Err
  unschedErr : Str → Option Err
  listErr : Str → Option Err
  addErr : Job → Option Err
  removeErr : Job → Option Err
  updateErr : Process → Option Err
  statesErr : Option Err
  states : List SchedJobState

/-- Modelled from the spec: `Job.JobName()` is defined outside `src/` (in the
jobs file of the repository); per §3 a Job's identity "is a pure deterministic
function of (application, release version, process type, instance index)" in
the §4.1 four-field dot format, i.e. it agrees with `newJobName`. -/
def jobName (j : Job) : Str :=
  newJobName j.AppName j.ReleaseVersion j.ProcessType j.Instance

/-- The model of `environment` (`manager.go:266`): coerces `Vars` to the
environment mapping (a type coercion in Go; the identity here). -/
def environment (vars : Vars) : Vars :=
  vars

/-- The `scheduler.Job` built by `schedule` (`manager.go:82-96`). -/
def toSchedJob (j : Job) : SchedJob :=
  { Name := jobName j
    Environment := environment j.Environment
    Execute := { Command := j.Command, Image := j.Image } }

/-- Append one collaborator call to the trace. -/
def logEv (s : St) (ev : Ev) : St :=
  { s with trace := s.trace ++ [ev] }

/-- The Job Repository's answer to `List(JobQuery{App: app})`: the tracked
jobs of that application. -/
def existingOf (s : St) (app : Str) : List Job :=
  s.tracked.filter (fun j => j.AppName == app)

/-- Lookup in a Go map built by inserting the listed jobs keyed by job name in
order: the last insertion wins (`manager.go:172-175`). -/
def lookupLast (l : List Job) (nm : Str) : Option Job :=
  l.reverse.find? (fun j => jobName j == nm)

/-- Lookup in a Go map built from scheduler job states keyed by name in order:
the last insertion wins (`manager.go:208-211`). -/
def lookupLastS (l : List SchedJobState) (nm : Str) : Option SchedJobState :=
  l.reverse.find? (fun e => e.Name == nm)

/-- Keyed update of the Process Repository's stored quantities. -/
def setProc (ps : List (Str × Int)) (t : Str) (q : Int) : List (Str × Int) :=
  (t, q) :: ps.filter (fun e => e.1 != t)

/-- Stored quantity of a process type in the Process Repository model. -/
def procLookup (ps : List (Str × Int)) (t : Str) : Option Int :=
  (ps.find? (fun e => e.1 == t)).map Prod.snd

/-- The model of `schedule` (`manager.go:81-107`): submit to the cluster
scheduler, then add to the Job Repository; the first failing call's error is
returned and the remaining work skipped. -/
def schedule (env : Env) (j : Job) (s : St) : Option Err × St :=
  let sj := toSchedJob j
  let s1 := logEv s (Ev.schedule sj)
  match env.schedErr sj with
  | some e => (some e, s1)
  | none =>
    let s2 := { s1 with cluster := s1.cluster ++ [sj] }
    let s3 := logEv s2 (Ev.repoAdd j)
    match env.addErr j with
    | some e => (some e, s3)
    | none => (none, { s3 with tracked := s3.tracked ++ [j] })

/-- The model of `unschedule` (`manager.go:119-126`): remove from the cluster
scheduler by name; only on success remove from the Job Repository. -/
def unschedule (env : Env) (j : Job) (s : St) : Option Err × St :=
  let nm := jobName j
  let s1 := logEv s (Ev.unschedule nm)
  match env.unschedErr nm with
  | some e => (some e, s1)
  | none =>
    let s2 := { s1 with cluster := s1.cluster.filter (fun sj => sj.Name != nm) }
    let s3 := logEv s2 (Ev.repoRemove j)
    match env.removeErr j with
    | some e => (some e, s3)
    | none => (none, { s3 with tracked := s3.tracked.filter (fun x => x != j) })

/-- The model of `scheduleMulti` (`manager.go:70-78`): sequential, fail-fast. -/
def scheduleMulti (env : Env) : List Job → St → Option Err × St
  | [], s => (none, s)
  | j :: rest, s =>
    match schedule env j s with
    | (some e, s1) => (some e, s1)
    | (none, s1) => scheduleMulti env rest s1

/-- The model of `unscheduleMulti` (`manager.go:109-117`), the bulk cleanup
path: sequential, fail-fast. -/
def unscheduleMulti (env : Env) : List Job → St → Option Err × St
  | [], s => (none, s)
  | j :: rest, s =>
    match unschedule env j s with
    | (some e, s1) => (some e, s1)
    | (none, s1) => unscheduleMulti env rest s1

/-- The model of `buildJobs` (`manager.go:241-263`): for each formation entry,
one Job per instance index 1..Quantity. -/
def buildJobs (name : Str) (version : Int) (image : ImageT) (vars : Vars)
    (f : Formation) : List Job :=
  f.flatMap (fun e =>
    (List.range e.2.Quantity.toNat).map (fun (k : Nat) =>
      { AppName := name
        ReleaseVersion := version
        ProcessType := e.1
        Instance := (k : Int) + 1
        Environment := vars
        Image := image
        Command := e.2.Command }))

/-- The Job built by `scaleProcess` during scale-up (`manager.go:147-155`). -/
def mkJob (rel : Release) (cfg : Config) (slug : Slug) (t : Str) (p : Process)
    (i : Int) : Job :=
  { AppName := rel.AppName
    ReleaseVersion := rel.Ver
    ProcessType := t
    Instance := i
    Environment := cfg.Vars
    Image := slug.Image
    Command := p.Command }

/-- The identity quadruple of a Job. -/
def jobId (j : Job) : Str × Int × Str × Int :=
  (j.AppName, j.ReleaseVersion, j.ProcessType, j.Instance)

/-- The pair of calls a successful `schedule` makes for one job. -/
def evPair (j : Job) : List Ev :=
  [Ev.schedule (toSchedJob j), Ev.repoAdd j]

/-- State after successfully scheduling a list of jobs in order. -/
def multiAppend (s : St) (jobs : List Job) : St :=
  { s with
    cluster := s.cluster ++ jobs.map toSchedJob
    tracked := s.tracked ++ jobs
    trace := s.trace ++ jobs.flatMap evPair }

/-- The model of `ScheduleRelease` (`manager.go:33-62`). The deferred cleanup
goroutine runs outside the synchronous call and is modelled separately by
`unscheduleMulti`; the call's own result does not depend on it. -/
def ScheduleRelease (env : Env) (rel : Release) (cfg : Config) (slug : Slug)
    (formation : Formation) (s : St) : Option Err × St :=
  let s1 := logEv s (Ev.repoList rel.AppName)
  match env.listErr rel.AppName with
  | some e => (some e, s1)
  | none =>
    scheduleMulti env (buildJobs rel.AppName rel.Ver slug.Image cfg.Vars formation) s1

/-- The scale-up loop of `scaleProcess` (`manager.go:145-160`): schedule
instances `i`, `i+1`, ... (`n` of them) in ascending order, fail-fast. -/
def scaleUp (env : Env) (mk : Int → Job) : Int → Nat → St → Option Err × St
  | _, 0, s => (none, s)
  | i, n + 1, s =>
    match schedule env (mk i) s with
    | (some e, s1) => (some e, s1)
    | (none, s1) => scaleUp env mk (i + 1) n s1

/-- The scale-down loop of `scaleProcess` (`manager.go:178-185`): for index
`i = q + n` down to `q + 1`, look the derived name up in the map built from
`existing`; if found, unschedule it discarding the result (`manager.go:181`
ignores the returned error); if not found, fail with the job-not-found error. -/
def scaleDown (env : Env) (app : Str) (v : Int) (t : Str) (existing : List Job)
    (q : Int) : Nat → St → Option Err × St
  | 0, s => (none, s)
  | n + 1, s =>
    match lookupLast existing (newJobName app v t (q + (n : Int) + 1)) with
    | some j => scaleDown env app v t existing q n (unschedule env j s).2
    | none => (some (Err.jobNotFound (newJobName app v t (q + (n : Int) + 1))), s)

/-- The scale-up block of `scaleProcess` (`manager.go:144-161`). -/
def upPhase (env : Env) (rel : Release) (cfg : Config) (slug : Slug)
    (t : Str) (p : Process) (q : Int) (s : St) : Option Err × St :=
  if p.Quantity < q then
    scaleUp env (mkJob rel cfg slug t p) (p.Quantity + 1) (q - p.Quantity).toNat s
  else (none, s)

/-- The scale-down block of `scaleProcess` (`manager.go:164-186`): when the
desired quantity is below the current one, list the application's tracked
jobs and run the descending unschedule loop. -/
def downPhase (env : Env) (rel : Release) (t : Str) (p : Process) (q : Int)
    (s : St) : Option Err × St :=
  if q < p.Quantity then
    match env.listErr rel.AppName with
    | some e => (some e, logEv s (Ev.repoList rel.AppName))
    | none =>
      scaleDown env rel.AppName rel.Ver t (existingOf s rel.AppName) q
        (p.Quantity - q).toNat (logEv s (Ev.repoList rel.AppName))
  else (none, s)

/-- The final block of `scaleProcess` (`manager.go:188-191`): set the
process's quantity (the in-place mutation of the Go record) and persist it to
the Process Repository. -/
def updatePhase (env : Env) (t : Str) (p : Process) (q : Int) (s : St) :
    Option Err × Process × St :=
  match env.updateErr { p with Quantity := q } with
  | some e => (some e, { p with Quantity := q },
      logEv s (Ev.procUpdate t { p with Quantity := q }))
  | none => (none, { p with Quantity := q },
      { logEv s (Ev.procUpdate t { p with Quantity := q }) with
        procs := setProc s.procs t q })

/-- The model of `scaleProcess` (`manager.go:142-192`): scale-up block, then
scale-down block, then the quantity update, fail-fast between blocks. The Go
code mutates the caller's `*Process` in place at line 189; here the (possibly)
updated record is returned as the second component. -/
def scaleProcess (env : Env) (rel : Release) (cfg : Config) (slug : Slug)
    (t : Str) (p : Process) (q : Int) (s : St) : Option Err × Process × St :=
  match upPhase env rel cfg slug t p q s with
  | (some e, s1) => (some e, p, s1)
  | (none, s1) =>
    match downPhase env rel t p q s1 with
    | (some e, s2) => (some e, p, s2)
    | (none, s2) => updatePhase env t p q s2

/-- Lookup of a process type in a Formation (`formation[t]`). -/
def flookup (f : Formation) (t : Str) : Option Process :=
  (f.find? (fun e => e.1 == t)).map Prod.snd

/-- Replace the Process a Formation maps a type to (the Go map entry points at
the record `scaleProcess` may have mutated). -/
def fset (f : Formation) (t : Str) (p : Process) : Formation :=
  f.map (fun e => if e.1 == t then (t, p) else e)

/-- The model of `ScaleRelease` (`manager.go:130-140`): for each map entry
whose type is present in the formation, reconcile via `scaleProcess`,
fail-fast; entries absent from the formation are skipped. -/
def ScaleRelease (env : Env) (rel : Release) (cfg : Config) (slug : Slug) :
    Formation → ProcessQuantityMap → St → Option Err × Formation × St
  | f, [], s => (none, f, s)
  | f, (t, q) :: rest, s =>
    match flookup f t with
    | none => ScaleRelease env rel cfg slug f rest s
    | some p =>
      match scaleProcess env rel cfg slug t p q s with
      | (some e, p1, s1) => (some e, fset f t p1, s1)
      | (none, p1, s1) => ScaleRelease env rel cfg slug (fset f t p1) rest s1

/-- The character codes of the string `unknown`. -/
def unknownStr : Str :=
  [117, 110, 107, 110, 111, 119, 110]

/-- The model of `JobStatesByApp` (`manager.go:194-234`): list tracked jobs,
fetch the scheduler snapshot, and join by job name with `unknown` sentinels
for names absent from the snapshot. -/
def JobStatesByApp (env : Env) (app : Str) (s : St) :
    Except Err (List JobState) × St :=
  let s1 := logEv s (Ev.repoList app)
  match env.listErr app with
  | some e => (Except.error e, s1)
  | none =>
    let jobs := existingOf s app
    let s2 := logEv s1 Ev.jobStates
    match env.statesErr with
    | some e => (Except.error e, s2)
    | none =>
      (Except.ok (jobs.map (fun j =>
        match lookupLastS env.states (jobName j) with
        | some e =>
          { Job := j, Name := jobName j, MachineID := e.MachineID, State := e.State }
        | none =>
          { Job := j, Name := jobName j, MachineID := unknownStr, State := unknownStr })),
       s2)

/-- Ascending scale-up jobs for one process type: instance indices
`p.Quantity + 1`, ..., `q`. -/
def upJobs (rel : Release) (cfg : Config) (slug : Slug) (t : Str) (p : Process)
    (q : Int) : List Job :=
  (List.range (q - p.Quantity).toNat).map (fun (k : Nat) => mkJob rel cfg slug t p (p.Quantity + 1 + (k : Int)))

/-- The descending index list `hi, hi - 1, ..., lo + 1`. -/
def descRange (hi lo : Int) : List Int :=
  (List.range (hi - lo).toNat).map (fun (k : Nat) => hi - (k : Int))

/-- Fixture: a release of application `a` at version 1. -/
def rel0 : Release :=
  { AppName := [97], Ver := 1 }

/-- Fixture: empty configuration. -/
def cfg0 : Config :=
  { Vars := [] }

/-- Fixture: a slug. -/
def slug0 : Slug :=
  { Image := { Repo := [114], ID := [105] } }

/-- Fixture: a process of quantity 2. -/
def p0 : Process :=
  { Command := [99], Quantity := 2 }

/-- Fixture: instance `i` of process type `w` of the fixture release. -/
def jb (i : Int) : Job :=
  mkJob rel0 cfg0 slug0 [119] p0 i

/-- Fixture: an environment where every collaborator call succeeds and the
scheduler snapshot reports instance 1. -/
def env0 : Env :=
  { schedErr := fun _ => none
    unschedErr := fun _ => none
    listErr := fun _ => none
    addErr := fun _ => none
    removeErr := fun _ => none
    updateErr := fun _ => none
    statesErr := none
    states := [{ Name := newJobName [97] 1 [119] 1, MachineID := [109], State := [115] }] }

/-- Fixture: like `env0` but `Unschedule` of instance 2 of the fixture
process fails. -/
def envU : Env :=
  { env0 with
    unschedErr := fun nm =>
      if nm == newJobName [97] 1 [119] 2 then some (Err.injected 7) else none }

/-- Fixture: the empty world. -/
def s0 : St :=
  { cluster := [], tracked := [], procs := [], trace := [] }

/-- Fixture: a world tracking instances 1 and 2. -/
def st2 : St :=
  { cluster := [], tracked := [jb 1, jb 2], procs := [], trace := [] }

/-- Fixture: a world tracking only instance 2 (instance 1 is missing). -/
def st3 : St :=
  { cluster := [], tracked := [jb 2], procs := [], trace := [] }

/-- Fixture: a two-process formation (quantities 2 and 0). -/
def f0 : Formation :=
  [([119], p0), ([120], { Command := [100], Quantity := 0 })]

/-- Fixture: like `env0` but the Process Repository `Update` always fails. -/
def envFailU : Env :=
  { env0 with updateErr := fun _ => some (Err.injected 9) }

theorem lookupLast_name (l : List Job) (nm : Str) (j : Job)
    (h : lookupLast l nm = some j) : jobName j = nm ∧ j ∈ l := by
  unfold lookupLast at h
  have h1 := @List.find?_some _ _ _ _ h
  have h2 := @List.mem_of_find?_eq_some _ _ _ _ h
  exact ⟨by simpa using h1, List.mem_reverse.mp h2⟩

theorem lookupLastS_mem (l : List SchedJobState) (nm : Str) (e : SchedJobState)
    (h : lookupLastS l nm = some e) : e ∈ l ∧ e.Name = nm := by
  unfold lookupLastS at h
  have h1 := @List.find?_some _ _ _ _ h
  have h2 := @List.mem_of_find?_eq_some _ _ _ _ h
  exact ⟨List.mem_reverse.mp h2, by simpa using h1⟩

theorem lookupLastS_none (l : List SchedJobState) (nm : Str)
    (h : lookupLastS l nm = none) : ∀ e ∈ l, e.Name ≠ nm := by
  unfold lookupLastS at h
  rw [List.find?_eq_none] at h
  intro e he
  simpa using h e (List.mem_reverse.mpr he)

/-- C2 counterexample: `newJobName` is not injective over all input tuples.
The distinct tuples `("a", 1, "b.2.c", 3)` and `("a.1.b", 2, "c", 3)` (code
lists: `97 = 'a'`, `98 = 'b'`, `99 = 'c'`, `46 = '.'`) render to the same
string `a.1.b.2.c.3`, because a dot inside the process type (or application
name) cannot be told apart from a separator. -/
theorem newJobName_collision :
    newJobName [97] 1 [98, 46, 50, 46, 99] 3 = newJobName [97, 46, 49, 46, 98] 2 [99] 3 ∧
    (([98, 46, 50, 46, 99] : Str) ≠ [99] ∧ (1 : Int) ≠ 2) := by
  decide

/-- C2 (amended): `newJobName` is pure and injective on tuples whose
application name and process type contain no dot (code 46): under that
restriction two tuples render to the same dot-joined string exactly when they
are equal. -/
theorem newJobName_inj_iff (n1 n2 t1 t2 : Str) (v1 v2 i1 i2 : Int)
    (h1 : 46 ∉ n1) (h2 : 46 ∉ n2) (h3 : 46 ∉ t1) (h4 : 46 ∉ t2) :
    newJobName n1 v1 t1 i1 = newJobName n2 v2 t2 i2 ↔
      (n1 = n2 ∧ v1 = v2 ∧ t1 = t2 ∧ i1 = i2) := by
  constructor
  · intro h
    unfold newJobName at h
    obtain ⟨e1, h⟩ := dot_split _ _ _ _ h1 h2 h
    obtain ⟨e2, h⟩ := dot_split _ _ _ _ (intChars_not_dot v1) (intChars_not_dot v2) h
    obtain ⟨e3, h⟩ := dot_split _ _ _ _ h3 h4 h
    exact ⟨e1, intChars_injective _ _ e2, e3, intChars_injective _ _ h⟩
  · rintro ⟨rfl, rfl, rfl, rfl⟩
    rfl

theorem newJobName_inj_iff_witness :
    (46 ∉ ([97] : Str)) ∧ (46 ∉ ([119] : Str)) ∧
    (newJobName [97] 3 [119] 1 = newJobName [97] 3 [119] 1 ↔
      (([97] : Str) = [97] ∧ (3 : Int) = 3 ∧ ([119] : Str) = [119] ∧ (1 : Int) = 1)) :=
  ⟨by decide, by decide,
    newJobName_inj_iff [97] [97] [119] [119] 3 3 1 1 (by decide) (by decide) (by decide) (by decide)⟩

/-- C1: `buildJobs` emits, for each formation entry of quantity `q`, one Job
per instance index 1..q (none when `q ≤ 0`), each carrying the entry's
command, the given image and the shared configuration variables; the total
count is the sum of the quantities; and when the formation's process types
are distinct (as Go map keys are), no two emitted jobs share the same
(application, version, process type, instance) identity. -/
theorem buildJobs_correct (name : Str) (version : Int) (image : ImageT)
    (vars : Vars) (f : Formation) (hk : (f.map Prod.fst).Nodup) :
    (buildJobs name version image vars f).length
      = (f.map (fun e => e.2.Quantity.toNat)).sum ∧
    (∀ j, j ∈ buildJobs name version image vars f ↔
      ∃ e ∈ f, ∃ i : Int, 1 ≤ i ∧ i ≤ e.2.Quantity ∧
        j = { AppName := name, ReleaseVersion := version, ProcessType := e.1,
              Instance := i, Environment := vars, Image := image,
              Command := e.2.Command }) ∧
    ((buildJobs name version image vars f).map jobId).Nodup := by
  refine ⟨?_, ?_, ?_⟩
  · rw [buildJobs, List.length_flatMap]
    refine congrArg List.sum (List.map_congr_left ?_)
    intro e _
    simp [Function.comp, List.length_map, List.length_range]
  · intro j
    rw [buildJobs, List.mem_flatMap]
    constructor
    · rintro ⟨e, he, hj⟩
      rw [List.mem_map] at hj
      obtain ⟨k, hk2, rfl⟩ := hj
      rw [List.mem_range] at hk2
      exact ⟨e, he, (k : Int) + 1, by omega, by omega, rfl⟩
    · rintro ⟨e, he, i, hi1, hi2, rfl⟩
      refine ⟨e, he, List.mem_map.mpr ⟨(i - 1).toNat, List.mem_range.mpr (by omega), ?_⟩⟩
      have hcast : (((i - 1).toNat : Int)) + 1 = i := by omega
      rw [hcast]
  · rw [buildJobs, List.map_flatMap, List.nodup_flatMap]
    constructor
    · intro e _
      rw [List.map_map]
      refine List.Nodup.map ?_ (List.nodup_range _)
      intro a b hab
      simp only [Function.comp, jobId, Prod.mk.injEq] at hab
      omega
    · have hp : List.Pairwise (fun a b => a.1 ≠ b.1) f := List.pairwise_map.mp hk
      refine hp.imp ?_
      intro a b hab x hxa hxb
      simp only [List.map_map, List.mem_map, List.mem_range, Function.comp, jobId] at hxa hxb
      obtain ⟨k1, _, hx1⟩ := hxa
      obtain ⟨k2, _, hx2⟩ := hxb
      rw [← hx2] at hx1
      exact hab (congrArg (fun z => z.2.2.1) hx1)

theorem buildJobs_correct_witness :
    ((f0.map Prod.fst).Nodup) ∧
    (buildJobs [97] 1 slug0.Image [] f0).length
      = (f0.map (fun e => e.2.Quantity.toNat)).sum :=
  ⟨by decide, (buildJobs_correct [97] 1 slug0.Image [] f0 (by decide)).1⟩

theorem multiAppend_nil (s : St) : multiAppend s [] = s := by
  simp [multiAppend]

theorem multiAppend_append (s : St) (a b : List Job) :
    multiAppend (multiAppend s a) b = multiAppend s (a ++ b) := by
  simp [multiAppend, List.map_append, List.flatMap_append, List.append_assoc]

theorem schedule_ok (env : Env) (j : Job) (s : St)
    (hs : env.schedErr (toSchedJob j) = none) (ha : env.addErr j = none) :
    schedule env j s = (none, multiAppend s [j]) := by
  simp [schedule, logEv, multiAppend, hs, ha, evPair, List.append_assoc]

theorem scheduleMulti_ok (env : Env) : ∀ (jobs : List Job) (s : St),
    (∀ j ∈ jobs, env.schedErr (toSchedJob j) = none ∧ env.addErr j = none) →
    scheduleMulti env jobs s = (none, multiAppend s jobs) := by
  intro jobs
  induction jobs with
  | nil =>
    intro s _
    simp [scheduleMulti, multiAppend]
  | cons j rest ih =>
    intro s h
    have hj := h j (List.mem_cons_self j rest)
    have hstep : scheduleMulti env (j :: rest) s
        = scheduleMulti env rest (multiAppend s [j]) := by
      rw [scheduleMulti, schedule_ok env j s hj.1 hj.2]
    rw [hstep, ih _ (fun x hx => h x (List.mem_cons_of_mem _ hx)), multiAppend_append]
    simp

theorem scheduleMulti_fail_sched (env : Env) (jf : Job) (post : List Job) (e : Err)
    (hf : env.schedErr (toSchedJob jf) = some e) :
    ∀ (pre : List Job) (s : St),
    (∀ j ∈ pre, env.schedErr (toSchedJob j) = none ∧ env.addErr j = none) →
    scheduleMulti env (pre ++ jf :: post) s =
      (some e,
       { cluster := s.cluster ++ pre.map toSchedJob
         tracked := s.tracked ++ pre
         procs := s.procs
         trace := s.trace ++ pre.flatMap evPair ++ [Ev.schedule (toSchedJob jf)] }) := by
  intro pre
  induction pre with
  | nil =>
    intro s _
    rw [List.nil_append, scheduleMulti]
    simp [schedule, hf, logEv]
  | cons j pre' ih =>
    intro s h
    have hj := h j (List.mem_cons_self j pre')
    have hstep : scheduleMulti env ((j :: pre') ++ jf :: post) s
        = scheduleMulti env (pre' ++ jf :: post) (multiAppend s [j]) := by
      rw [List.cons_append, scheduleMulti, schedule_ok env j s hj.1 hj.2]
    rw [hstep, ih _ (fun x hx => h x (List.mem_cons_of_mem _ hx))]
    simp [multiAppend, evPair, List.append_assoc]

theorem scheduleMulti_fail_add (env : Env) (jf : Job) (post : List Job) (e : Err)
    (hf1 : env.schedErr (toSchedJob jf) = none) (hf2 : env.addErr jf = some e) :
    ∀ (pre : List Job) (s : St),
    (∀ j ∈ pre, env.schedErr (toSchedJob j) = none ∧ env.addErr j = none) →
    scheduleMulti env (pre ++ jf :: post) s =
      (some e,
       { cluster := s.cluster ++ pre.map toSchedJob ++ [toSchedJob jf]
         tracked := s.tracked ++ pre
         procs := s.procs
         trace := s.trace ++ pre.flatMap evPair
                    ++ [Ev.schedule (toSchedJob jf), Ev.repoAdd jf] }) := by
  intro pre
  induction pre with
  | nil =>
    intro s _
    rw [List.nil_append, scheduleMulti]
    simp [schedule, hf1, hf2, logEv]
  | cons j pre' ih =>
    intro s h
    have hj := h j (List.mem_cons_self j pre')
    have hstep : scheduleMulti env ((j :: pre') ++ jf :: post) s
        = scheduleMulti env (pre' ++ jf :: post) (multiAppend s [j]) := by
      rw [List.cons_append, scheduleMulti, schedule_ok env j s hj.1 hj.2]
    rw [hstep, ih _ (fun x hx => h x (List.mem_cons_of_mem _ hx))]
    simp [multiAppend, evPair, List.append_assoc]

/-- C6: `ScheduleRelease` submits the new-generation jobs strictly
sequentially, each to the scheduler then to the Job Repository; when every
submission succeeds it returns `none` (success), with no dependence on the
environment's unschedule behaviour (the deferred cleanup runs outside the
call); the first scheduler or repository failure makes it return that error,
with the jobs before the failure still scheduled and tracked (no rollback)
and no calls made for the remaining jobs (the final trace is pinned exactly). -/
theorem scheduleRelease_failFast (env : Env) (rel : Release) (cfg : Config)
    (slug : Slug) (formation : Formation) (s : St) (jobs : List Job)
    (hjobs : jobs = buildJobs rel.AppName rel.Ver slug.Image cfg.Vars formation)
    (hlist : env.listErr rel.AppName = none) :
    ((∀ j ∈ jobs, env.schedErr (toSchedJob j) = none ∧ env.addErr j = none) →
      ScheduleRelease env rel cfg slug formation s =
        (none, multiAppend (logEv s (Ev.repoList rel.AppName)) jobs)) ∧
    (∀ pre jf post e, jobs = pre ++ jf :: post →
      (∀ j ∈ pre, env.schedErr (toSchedJob j) = none ∧ env.addErr j = none) →
      (env.schedErr (toSchedJob jf) = some e ∨
        (env.schedErr (toSchedJob jf) = none ∧ env.addErr jf = some e)) →
      (ScheduleRelease env rel cfg slug formation s).1 = some e ∧
      (ScheduleRelease env rel cfg slug formation s).2.tracked = s.tracked ++ pre ∧
      (((ScheduleRelease env rel cfg slug formation s).2.cluster
           = s.cluster ++ pre.map toSchedJob ∧
        (ScheduleRelease env rel cfg slug formation s).2.trace
           = s.trace ++ Ev.repoList rel.AppName ::
               (pre.flatMap evPair ++ [Ev.schedule (toSchedJob jf)])) ∨
       ((ScheduleRelease env rel cfg slug formation s).2.cluster
           = s.cluster ++ pre.map toSchedJob ++ [toSchedJob jf] ∧
        (ScheduleRelease env rel cfg slug formation s).2.trace
           = s.trace ++ Ev.repoList rel.AppName ::
               (pre.flatMap evPair ++ [Ev.schedule (toSchedJob jf), Ev.repoAdd jf])))) := by
  subst hjobs
  constructor
  · intro hok
    rw [ScheduleRelease, hlist]
    exact scheduleMulti_ok env _ _ hok
  · intro pre jf post e hsplit hpre hfail
    rw [ScheduleRelease, hlist, hsplit]
    rcases hfail with hf | ⟨hf1, hf2⟩
    · rw [scheduleMulti_fail_sched env jf post e hf pre _ hpre]
      refine ⟨rfl, by simp [logEv], Or.inl ⟨by simp [logEv], ?_⟩⟩
      simp [logEv, List.append_assoc]
    · rw [scheduleMulti_fail_add env jf post e hf1 hf2 pre _ hpre]
      refine ⟨rfl, by simp [logEv], Or.inr ⟨by simp [logEv], ?_⟩⟩
      simp [logEv, List.append_assoc]

theorem scheduleRelease_failFast_witness :
    env0.listErr rel0.AppName = none ∧
    ScheduleRelease env0 rel0 cfg0 slug0 f0 s0 =
      (none, multiAppend (logEv s0 (Ev.repoList rel0.AppName))
        (buildJobs rel0.AppName rel0.Ver slug0.Image cfg0.Vars f0)) :=
  ⟨rfl, (scheduleRelease_failFast env0 rel0 cfg0 slug0 f0 s0 _ rfl rfl).1
    (fun _ _ => ⟨rfl, rfl⟩)⟩

theorem scaleUp_ok (env : Env) (mk : Int → Job)
    (hs : ∀ sj, env.schedErr sj = none) (ha : ∀ j, env.addErr j = none) :
    ∀ (n : Nat) (i : Int) (s : St),
    scaleUp env mk i n s =
      (none, multiAppend s ((List.range n).map (fun (k : Nat) => mk (i + (k : Int))))) := by
  intro n
  induction n with
  | zero =>
    intro i s
    simp [scaleUp, multiAppend]
  | succ n ih =>
    intro i s
    have hstep : scaleUp env mk i (n + 1) s
        = scaleUp env mk (i + 1) n (multiAppend s [mk i]) := by
      rw [scaleUp, schedule_ok env (mk i) s (hs _) (ha _)]
    rw [hstep, ih, multiAppend_append]
    have hlist : [mk i] ++ (List.range n).map (fun (k : Nat) => mk (i + 1 + (k : Int)))
        = (List.range (n + 1)).map (fun (k : Nat) => mk (i + (k : Int))) := by
      rw [List.range_succ_eq_map, List.map_cons, List.map_map, List.singleton_append]
      congr 1
      · simp
      · refine List.map_congr_left ?_
        intro k _
        have : i + 1 + (k : Int) = i + ((k.succ : Nat) : Int) := by push_cast; ring
        rw [this]
        rfl
    rw [hlist]

/-- C3: for a scale-up (desired `q` strictly above the current quantity, all
collaborator calls succeeding), `scaleProcess` schedules exactly the jobs with
instance indices `p.Quantity + 1 .. q` in ascending order (`upJobs`), each
submitted to the scheduler and then added to the Job Repository (the trace is
pinned exactly, ending with the Process Repository update), and afterwards the
Process Repository holds quantity `q` for the process type. -/
theorem scaleProcess_scaleUp (env : Env) (rel : Release) (cfg : Config)
    (slug : Slug) (t : Str) (p : Process) (q : Int) (s : St)
    (hq : p.Quantity < q)
    (hs : ∀ sj, env.schedErr sj = none) (ha : ∀ j, env.addErr j = none)
    (hu : ∀ pr, env.updateErr pr = none) :
    scaleProcess env rel cfg slug t p q s =
      (none, { p with Quantity := q },
       { cluster := s.cluster ++ (upJobs rel cfg slug t p q).map toSchedJob
         tracked := s.tracked ++ upJobs rel cfg slug t p q
         procs := setProc s.procs t q
         trace := s.trace ++ (upJobs rel cfg slug t p q).flatMap evPair
                    ++ [Ev.procUpdate t { p with Quantity := q }] }) ∧
    procLookup (scaleProcess env rel cfg slug t p q s).2.2.procs t = some q := by
  have hnot : ¬ q < p.Quantity := by omega
  have hA : upPhase env rel cfg slug t p q s
      = (none, multiAppend s (upJobs rel cfg slug t p q)) := by
    rw [upPhase, if_pos hq, scaleUp_ok env _ hs ha]
    rfl
  have hB : downPhase env rel t p q (multiAppend s (upJobs rel cfg slug t p q))
      = (none, multiAppend s (upJobs rel cfg slug t p q)) := by
    rw [downPhase, if_neg hnot]
  have hmain : scaleProcess env rel cfg slug t p q s =
      (none, { p with Quantity := q },
       { cluster := s.cluster ++ (upJobs rel cfg slug t p q).map toSchedJob
         tracked := s.tracked ++ upJobs rel cfg slug t p q
         procs := setProc s.procs t q
         trace := s.trace ++ (upJobs rel cfg slug t p q).flatMap evPair
                    ++ [Ev.procUpdate t { p with Quantity := q }] }) := by
    simp only [scaleProcess, hA, hB, updatePhase, hu, logEv]
    simp [multiAppend, List.append_assoc]
  refine ⟨hmain, ?_⟩
  rw [hmain]
  simp [procLookup, setProc]

theorem scaleProcess_scaleUp_witness :
    p0.Quantity < 4 ∧
    procLookup (scaleProcess env0 rel0 cfg0 slug0 [119] p0 4 st2).2.2.procs [119]
      = some 4 :=
  ⟨by decide,
    (scaleProcess_scaleUp env0 rel0 cfg0 slug0 [119] p0 4 st2 (by decide)
      (fun _ => rfl) (fun _ => rfl) (fun _ => rfl)).2⟩

theorem unschedule_ok (env : Env) (j : Job) (s : St)
    (h1 : env.unschedErr (jobName j) = none) (h2 : env.removeErr j = none) :
    unschedule env j s =
      (none,
       { cluster := s.cluster.filter (fun sj => sj.Name != jobName j)
         tracked := s.tracked.filter (fun x => x != j)
         procs := s.procs
         trace := s.trace ++ [Ev.unschedule (jobName j), Ev.repoRemove j] }) := by
  simp [unschedule, h1, h2, logEv, List.append_assoc]

theorem unschedule_parts (env : Env) (j : Job) (s : St) :
    ∃ tl, (unschedule env j s).2.trace = s.trace ++ Ev.unschedule (jobName j) :: tl ∧
      (∀ ev ∈ tl, ev = Ev.repoRemove j) ∧
      (unschedule env j s).2.procs = s.procs := by
  unfold unschedule
  cases h1 : env.unschedErr (jobName j) with
  | some e =>
    exact ⟨[], by simp [h1, logEv], by simp, by simp [h1, logEv]⟩
  | none =>
    cases h2 : env.removeErr j with
    | some e =>
      refine ⟨[Ev.repoRemove j], by simp [h1, h2, logEv, List.append_assoc], ?_,
        by simp [h1, h2, logEv]⟩
      intro ev hev
      simpa using hev
    | none =>
      refine ⟨[Ev.repoRemove j], by simp [h1, h2, logEv, List.append_assoc], ?_,
        by simp [h1, h2, logEv]⟩
      intro ev hev
      simpa using hev

theorem schedule_swapU (env : Env) (g : Process → Option Err) (j : Job) (s : St) :
    schedule { env with updateErr := g } j s = schedule env j s :=
  rfl

theorem unschedule_swapU (env : Env) (g : Process → Option Err) (j : Job) (s : St) :
    unschedule { env with updateErr := g } j s = unschedule env j s :=
  rfl

theorem scaleUp_swapU (env : Env) (g : Process → Option Err) (mk : Int → Job) :
    ∀ (n : Nat) (i : Int) (s : St),
    scaleUp { env with updateErr := g } mk i n s = scaleUp env mk i n s := by
  intro n
  induction n with
  | zero => intro i s; rfl
  | succ n ih =>
    intro i s
    rw [scaleUp, scaleUp, schedule_swapU]
    rcases h : schedule env (mk i) s with ⟨e1, s1⟩
    cases e1 <;> simp [ih]

theorem scaleDown_swapU (env : Env) (g : Process → Option Err) (app : Str)
    (v : Int) (t : Str) (existing : List Job) (q : Int) :
    ∀ (n : Nat) (s : St),
    scaleDown { env with updateErr := g } app v t existing q n s
      = scaleDown env app v t existing q n s := by
  intro n
  induction n with
  | zero => intro s; rfl
  | succ n ih =>
    intro s
    rcases h : lookupLast existing (newJobName app v t (q + (n : Int) + 1)) with _ | j
    · simp only [scaleDown, h]
    · simp only [scaleDown, h, unschedule_swapU]
      exact ih _

theorem upPhase_swapU (env : Env) (g : Process → Option Err) (rel : Release)
    (cfg : Config) (slug : Slug) (t : Str) (p : Process) (q : Int) (s : St) :
    upPhase { env with updateErr := g } rel cfg slug t p q s
      = upPhase env rel cfg slug t p q s := by
  unfold upPhase
  rw [scaleUp_swapU]

theorem downPhase_swapU (env : Env) (g : Process → Option Err) (rel : Release)
    (t : Str) (p : Process) (q : Int) (s : St) :
    downPhase { env with updateErr := g } rel t p q s
      = downPhase env rel t p q s := by
  simp only [downPhase, scaleDown_swapU]

theorem scaleProcess_swapU (env : Env) (g : Process → Option Err) (rel : Release)
    (cfg : Config) (slug : Slug) (t : Str) (p : Process) (q : Int) (s : St) :
    ((scaleProcess { env with updateErr := g } rel cfg slug t p q s).2.2.tracked
       = (scaleProcess env rel cfg slug t p q s).2.2.tracked) ∧
    ((scaleProcess { env with updateErr := g } rel cfg slug t p q s).2.2.cluster
       = (scaleProcess env rel cfg slug t p q s).2.2.cluster) ∧
    ((scaleProcess { env with updateErr := g } rel cfg slug t p q s).2.2.trace
       = (scaleProcess env rel cfg slug t p q s).2.2.trace) := by
  rcases hA : upPhase env rel cfg slug t p q s with ⟨e1, s1⟩
  simp only [scaleProcess, upPhase_swapU, hA]
  cases e1 with
  | some e => simp
  | none =>
    rcases hB : downPhase env rel t p q s1 with ⟨e2, s2⟩
    simp only [downPhase_swapU, hB]
    cases e2 with
    | some e => simp
    | none =>
      simp only [updatePhase]
      cases hg : g { p with Quantity := q } <;>
        cases hu : env.updateErr { p with Quantity := q } <;>
          simp [logEv]

theorem scaleDown_noUpdate (env : Env) (app : Str) (v : Int) (t : Str)
    (existing : List Job) (q : Int) :
    ∀ (n : Nat) (s : St),
    (∀ i : Int, q < i → i ≤ q + n →
      (lookupLast existing (newJobName app v t i)).isSome) →
    (scaleDown env app v t existing q n s).1 = none ∧
    ∃ mid, (scaleDown env app v t existing q n s).2.trace = s.trace ++ mid ∧
      (∀ ev ∈ mid, ∀ t2 p2, ev ≠ Ev.procUpdate t2 p2) ∧
      (∀ i : Int, q < i → i ≤ q + n → Ev.unschedule (newJobName app v t i) ∈ mid) ∧
      (scaleDown env app v t existing q n s).2.procs = s.procs := by
  intro n
  induction n with
  | zero =>
    intro s _
    refine ⟨rfl, [], by simp [scaleDown], by simp, ?_, rfl⟩
    intro i h1 h2
    exact absurd h2 (by push_cast; omega)
  | succ n ih =>
    intro s h
    have hi0 := h (q + (n : Int) + 1) (by omega) (by push_cast; omega)
    obtain ⟨j, hj⟩ := Option.isSome_iff_exists.mp hi0
    have hname := (lookupLast_name _ _ _ hj).1
    have hstep : scaleDown env app v t existing q (n + 1) s
        = scaleDown env app v t existing q n (unschedule env j s).2 := by
      rw [scaleDown, hj]
    obtain ⟨tl, htr, htl, hpr⟩ := unschedule_parts env j s
    obtain ⟨h1, mid, hmid1, hmid2, hmid3, hmid4⟩ :=
      ih (unschedule env j s).2 (fun i hi1 hi2 => h i hi1 (by push_cast at hi2 ⊢; omega))
    refine ⟨by rw [hstep]; exact h1,
      Ev.unschedule (jobName j) :: (tl ++ mid), ?_, ?_, ?_, ?_⟩
    · rw [hstep, hmid1, htr]
      simp [List.append_assoc]
    · intro ev hev t2 p2
      rcases List.mem_cons.mp hev with rfl | hev2
      · simp
      · rcases List.mem_append.mp hev2 with hev3 | hev3
        · rw [htl ev hev3]
          simp
        · exact hmid2 ev hev3 t2 p2
    · intro i hi1 hi2
      by_cases hc : i = q + (n : Int) + 1
      · subst hc
        rw [← hname]
        exact List.mem_cons_self _ _
      · have hb : q < i ∧ i ≤ q + (n : Int) := by
          constructor
          · exact hi1
          · push_cast at hi2; omega
        exact List.mem_cons_of_mem _ (List.mem_append_right _ (hmid3 i hb.1 hb.2))
    · rw [hstep, hmid4, hpr]

theorem scaleProcess_preOk (env : Env) (rel : Release) (cfg : Config)
    (slug : Slug) (t : Str) (p : Process) (q : Int) (s : St)
    (hup : p.Quantity < q →
      (∀ sj, env.schedErr sj = none) ∧ (∀ j, env.addErr j = none))
    (hdown : q < p.Quantity → env.listErr rel.AppName = none ∧
      (∀ i : Int, q < i → i ≤ p.Quantity →
        (lookupLast (existingOf s rel.AppName)
          (newJobName rel.AppName rel.Ver t i)).isSome)) :
    ∃ mid,
      (∀ ev ∈ mid, ∀ t2 p2, ev ≠ Ev.procUpdate t2 p2) ∧
      ((scaleProcess env rel cfg slug t p q s).2.2.trace
        = s.trace ++ mid ++ [Ev.procUpdate t { p with Quantity := q }]) ∧
      ((scaleProcess env rel cfg slug t p q s).1
        = env.updateErr { p with Quantity := q }) ∧
      ((scaleProcess env rel cfg slug t p q s).2.1 = { p with Quantity := q }) ∧
      (q < p.Quantity → ∀ i : Int, q < i → i ≤ p.Quantity →
        Ev.unschedule (newJobName rel.AppName rel.Ver t i) ∈ mid) := by
  rcases lt_trichotomy p.Quantity q with hq | hq | hq
  · obtain ⟨hs, ha⟩ := hup hq
    have hnot : ¬ q < p.Quantity := by omega
    have hA : upPhase env rel cfg slug t p q s
        = (none, multiAppend s (upJobs rel cfg slug t p q)) := by
      rw [upPhase, if_pos hq, scaleUp_ok env _ hs ha]
      rfl
    have hB : downPhase env rel t p q (multiAppend s (upJobs rel cfg slug t p q))
        = (none, multiAppend s (upJobs rel cfg slug t p q)) := by
      rw [downPhase, if_neg hnot]
    refine ⟨(upJobs rel cfg slug t p q).flatMap evPair, ?_, ?_, ?_, ?_,
      fun hc => absurd hc hnot⟩
    · intro ev hev t2 p2
      rw [List.mem_flatMap] at hev
      obtain ⟨j0, _, hev2⟩ := hev
      rcases List.mem_cons.mp hev2 with rfl | hev3
      · simp
      · rcases List.mem_cons.mp hev3 with rfl | hev4
        · simp
        · exact absurd hev4 (List.not_mem_nil ev)
    · simp only [scaleProcess, hA, hB, updatePhase]
      cases hu : env.updateErr { p with Quantity := q } <;>
        simp [logEv, multiAppend, List.append_assoc]
    · simp only [scaleProcess, hA, hB, updatePhase]
      cases hu : env.updateErr { p with Quantity := q } <;> simp [hu]
    · simp only [scaleProcess, hA, hB, updatePhase]
      cases hu : env.updateErr { p with Quantity := q } <;> simp [hu]
  · have hnot1 : ¬ p.Quantity < q := by omega
    have hnot2 : ¬ q < p.Quantity := by omega
    have hA : upPhase env rel cfg slug t p q s = (none, s) := by
      rw [upPhase, if_neg hnot1]
    have hB : downPhase env rel t p q s = (none, s) := by
      rw [downPhase, if_neg hnot2]
    refine ⟨[], by simp, ?_, ?_, ?_, fun hc => absurd hc hnot2⟩
    · simp only [scaleProcess, hA, hB, updatePhase]
      cases hu : env.updateErr { p with Quantity := q } <;> simp [logEv]
    · simp only [scaleProcess, hA, hB, updatePhase]
      cases hu : env.updateErr { p with Quantity := q } <;> simp [hu]
    · simp only [scaleProcess, hA, hB, updatePhase]
      cases hu : env.updateErr { p with Quantity := q } <;> simp [hu]
  · obtain ⟨hl, hp⟩ := hdown hq
    have hnot1 : ¬ p.Quantity < q := by omega
    have hA : upPhase env rel cfg slug t p q s = (none, s) := by
      rw [upPhase, if_neg hnot1]
    obtain ⟨h1, mid0, hm1, hm2, hm3, hm4⟩ :=
      scaleDown_noUpdate env rel.AppName rel.Ver t (existingOf s rel.AppName) q
        ((p.Quantity - q).toNat) (logEv s (Ev.repoList rel.AppName))
        (fun i hi1 hi2 => hp i hi1 (by omega))
    simp only [logEv] at hm1
    have hpair : scaleDown env rel.AppName rel.Ver t (existingOf s rel.AppName) q
        ((p.Quantity - q).toNat) (logEv s (Ev.repoList rel.AppName))
        = (none, (scaleDown env rel.AppName rel.Ver t (existingOf s rel.AppName) q
            ((p.Quantity - q).toNat) (logEv s (Ev.repoList rel.AppName))).2) := by
      rw [← h1]
    have hB : downPhase env rel t p q s
        = (none, (scaleDown env rel.AppName rel.Ver t (existingOf s rel.AppName) q
            ((p.Quantity - q).toNat) (logEv s (Ev.repoList rel.AppName))).2) := by
      rw [downPhase, if_pos hq, hl, ← hpair]
    refine ⟨Ev.repoList rel.AppName :: mid0, ?_, ?_, ?_, ?_, ?_⟩
    · intro ev hev t2 p2
      rcases List.mem_cons.mp hev with rfl | hev2
      · simp
      · exact hm2 ev hev2 t2 p2
    · simp only [scaleProcess, hA, hB, updatePhase]
      cases hu : env.updateErr { p with Quantity := q } <;>
        simp [logEv, hm1, List.append_assoc]
    · simp only [scaleProcess, hA, hB, updatePhase]
      cases hu : env.updateErr { p with Quantity := q } <;> simp [hu]
    · simp only [scaleProcess, hA, hB, updatePhase]
      cases hu : env.updateErr { p with Quantity := q } <;> simp [hu]
    · intro _ i hi1 hi2
      exact List.mem_cons_of_mem _ (hm3 i hi1 (by omega))

/-- C9: whenever `scaleProcess` reconciles a process type (the pre-update
phase completes: scale-up submissions succeed, or scale-down finds every
expected job; a no-op needs nothing), exactly one Process Repository `Update`
is performed — the trace is `s.trace ++ mid ++ [procUpdate]` with no update
event in `mid` — carrying quantity `q`; the call returns exactly the
`Update`'s result; and the scheduler/Job Repository effects already applied
do not depend on whether `Update` fails (swapping the update oracle leaves
tracked jobs and cluster state unchanged). -/
theorem scaleProcess_updateOnce (env : Env) (rel : Release) (cfg : Config)
    (slug : Slug) (t : Str) (p : Process) (q : Int) (s : St)
    (hup : p.Quantity < q →
      (∀ sj, env.schedErr sj = none) ∧ (∀ j, env.addErr j = none))
    (hdown : q < p.Quantity → env.listErr rel.AppName = none ∧
      (∀ i : Int, q < i → i ≤ p.Quantity →
        (lookupLast (existingOf s rel.AppName)
          (newJobName rel.AppName rel.Ver t i)).isSome)) :
    (∃ mid, (∀ ev ∈ mid, ∀ t2 p2, ev ≠ Ev.procUpdate t2 p2) ∧
      (scaleProcess env rel cfg slug t p q s).2.2.trace
        = s.trace ++ mid ++ [Ev.procUpdate t { p with Quantity := q }]) ∧
    (scaleProcess env rel cfg slug t p q s).1
      = env.updateErr { p with Quantity := q } ∧
    (∀ g, (scaleProcess { env with updateErr := g } rel cfg slug t p q s).2.2.tracked
        = (scaleProcess env rel cfg slug t p q s).2.2.tracked ∧
      (scaleProcess { env with updateErr := g } rel cfg slug t p q s).2.2.cluster
        = (scaleProcess env rel cfg slug t p q s).2.2.cluster) := by
  obtain ⟨mid, hm1, hm2, hm3, _, _⟩ :=
    scaleProcess_preOk env rel cfg slug t p q s hup hdown
  exact ⟨⟨mid, hm1, hm2⟩, hm3,
    fun g => ⟨(scaleProcess_swapU env g rel cfg slug t p q s).1,
      (scaleProcess_swapU env g rel cfg slug t p q s).2.1⟩⟩

theorem scaleProcess_updateOnce_witness :
    (scaleProcess env0 rel0 cfg0 slug0 [119] p0 2 st2).1
      = env0.updateErr { p0 with Quantity := 2 } :=
  (scaleProcess_updateOnce env0 rel0 cfg0 slug0 [119] p0 2 st2
    (fun h => absurd h (by decide)) (fun h => absurd h (by decide))).2.1

/-- C10: whenever `scaleProcess` reconciles a process type (same pre-update
hypotheses as the update theorem), the returned Process record — the model of
the caller's `*Process` mutated in place at `manager.go:189` — has its
Quantity set to the desired value and its Command unchanged, with no
hypothesis on the `Update` call's outcome: the mutation is visible even when
`Update` returns an error. -/
theorem scaleProcess_mutatesProcess (env : Env) (rel : Release) (cfg : Config)
    (slug : Slug) (t : Str) (p : Process) (q : Int) (s : St)
    (hup : p.Quantity < q →
      (∀ sj, env.schedErr sj = none) ∧ (∀ j, env.addErr j = none))
    (hdown : q < p.Quantity → env.listErr rel.AppName = none ∧
      (∀ i : Int, q < i → i ≤ p.Quantity →
        (lookupLast (existingOf s rel.AppName)
          (newJobName rel.AppName rel.Ver t i)).isSome)) :
    (scaleProcess env rel cfg slug t p q s).2.1 = { p with Quantity := q } ∧
    (scaleProcess env rel cfg slug t p q s).2.1.Quantity = q ∧
    (scaleProcess env rel cfg slug t p q s).2.1.Command = p.Command := by
  obtain ⟨_, _, _, _, h4, _⟩ :=
    scaleProcess_preOk env rel cfg slug t p q s hup hdown
  exact ⟨h4, by rw [h4], by rw [h4]⟩

theorem scaleProcess_mutatesProcess_witness :
    envFailU.updateErr { p0 with Quantity := 4 } = some (Err.injected 9) ∧
    (scaleProcess envFailU rel0 cfg0 slug0 [119] p0 4 st2).2.1
      = { p0 with Quantity := 4 } :=
  ⟨rfl, (scaleProcess_mutatesProcess envFailU rel0 cfg0 slug0 [119] p0 4 st2
    (fun _ => ⟨fun _ => rfl, fun _ => rfl⟩) (fun h => absurd h (by decide))).1⟩

/-- C5 counterexample: an `Unschedule` failure during the scale-down loop is
not returned and does not abort the loop. With `envU`, unscheduling instance 2
fails with `Err.injected 7`, yet scaling the fixture process from 2 down to 1
makes that unschedule call (it is in the trace) and returns `none` (success),
not the scheduler's error — refuting "that first error aborts the remaining
work of the call and is the error returned to the caller". -/
theorem scaleDown_error_not_returned :
    envU.unschedErr (newJobName [97] 1 [119] 2) = some (Err.injected 7) ∧
    Ev.unschedule (newJobName [97] 1 [119] 2)
      ∈ (scaleProcess envU rel0 cfg0 slug0 [119] p0 1 st2).2.2.trace ∧
    (scaleProcess envU rel0 cfg0 slug0 [119] p0 1 st2).1 = none := by
  decide

/-- C5 (amended): the synchronous operations are fail-fast for the checked
collaborator calls, but an `Unschedule` or `Remove` failure during the
scale-down loop is discarded (`manager.go:181` ignores the result): when every
expected job is found, the loop runs through all remaining indices whatever
those calls return — every index's unschedule call appears in the trace — and
the call returns the Process Repository update's result, not the discarded
error. -/
theorem scaleDown_swallowsUnschedErr (env : Env) (rel : Release) (cfg : Config)
    (slug : Slug) (t : Str) (p : Process) (q : Int) (s : St)
    (hq : q < p.Quantity)
    (hlist : env.listErr rel.AppName = none)
    (hpres : ∀ i : Int, q < i → i ≤ p.Quantity →
      (lookupLast (existingOf s rel.AppName)
        (newJobName rel.AppName rel.Ver t i)).isSome) :
    (scaleProcess env rel cfg slug t p q s).1
      = env.updateErr { p with Quantity := q } ∧
    (∀ i : Int, q < i → i ≤ p.Quantity →
      Ev.unschedule (newJobName rel.AppName rel.Ver t i)
        ∈ (scaleProcess env rel cfg slug t p q s).2.2.trace) := by
  obtain ⟨mid, _, hm2, hm3, _, hm5⟩ :=
    scaleProcess_preOk env rel cfg slug t p q s
      (fun h => absurd h (by omega)) (fun _ => ⟨hlist, hpres⟩)
  refine ⟨hm3, ?_⟩
  intro i h1 h2
  rw [hm2]
  exact List.mem_append_left _ (List.mem_append_right _ (hm5 hq i h1 h2))

theorem scaleDown_swallowsUnschedErr_witness :
    (1 : Int) < p0.Quantity ∧
    (scaleProcess envU rel0 cfg0 slug0 [119] p0 1 st2).1
      = envU.updateErr { p0 with Quantity := 1 } :=
  ⟨by decide,
    (scaleDown_swallowsUnschedErr envU rel0 cfg0 slug0 [119] p0 1 st2 (by decide) rfl
      (fun i h1 h2 => by
        have hq2 : p0.Quantity = 2 := rfl
        have hi : i = 2 := by omega
        subst hi
        decide)).1⟩

theorem descRange_nil (hi lo : Int) (h : hi ≤ lo) : descRange hi lo = [] := by
  unfold descRange
  have h0 : (hi - lo).toNat = 0 := by omega
  rw [h0]
  simp

theorem descRange_cons (hi lo : Int) (h : lo < hi) :
    descRange hi lo = hi :: descRange (hi - 1) lo := by
  unfold descRange
  have h1 : (hi - lo).toNat = (hi - 1 - lo).toNat + 1 := by omega
  rw [h1, List.range_succ_eq_map, List.map_cons, List.map_map]
  congr 1
  · simp
  · refine List.map_congr_left ?_
    intro k _
    simp only [Function.comp]
    push_cast
    ring

theorem scaleDown_missing (env : Env) (app : Str) (v : Int) (t : Str)
    (existing : List Job) (q m : Int) (jbf : Int → Job) :
    ∀ (n : Nat) (s : St),
    q < m → m ≤ q + n →
    (∀ i : Int, m < i → i ≤ q + n →
      lookupLast existing (newJobName app v t i) = some (jbf i)) →
    lookupLast existing (newJobName app v t m) = none →
    (∀ i : Int, m < i → i ≤ q + n →
      env.unschedErr (newJobName app v t i) = none ∧
        env.removeErr (jbf i) = none) →
    (scaleDown env app v t existing q n s).1
      = some (Err.jobNotFound (newJobName app v t m)) ∧
    (scaleDown env app v t existing q n s).2.trace
      = s.trace ++ (descRange (q + n) m).flatMap
          (fun i => [Ev.unschedule (newJobName app v t i), Ev.repoRemove (jbf i)]) ∧
    (∀ j0 ∈ s.tracked, (∀ i : Int, m < i → i ≤ q + n → j0 ≠ jbf i) →
      j0 ∈ (scaleDown env app v t existing q n s).2.tracked) ∧
    (∀ j0 ∈ (scaleDown env app v t existing q n s).2.tracked, j0 ∈ s.tracked) ∧
    (scaleDown env app v t existing q n s).2.procs = s.procs := by
  intro n
  induction n with
  | zero =>
    intro s hqm hmn
    exfalso
    push_cast at hmn
    omega
  | succ n ih =>
    intro s hqm hmn hpres hmiss herr
    by_cases hc : m = q + (n : Int) + 1
    · have hmiss2 : lookupLast existing (newJobName app v t (q + (n : Int) + 1))
          = none := by
        rw [← hc]
        exact hmiss
      refine ⟨?_, ?_, ?_, ?_, ?_⟩
      · simp only [scaleDown, hmiss2]
        rw [hc]
      · simp only [scaleDown, hmiss2]
        rw [descRange_nil _ _ (by push_cast; omega)]
        simp
      · intro j0 hj0 _
        simp only [scaleDown, hmiss2]
        exact hj0
      · intro j0 hj0
        simp only [scaleDown, hmiss2] at hj0
        exact hj0
      · simp only [scaleDown, hmiss2]
    · have hin : m ≤ q + (n : Int) := by push_cast at hmn; omega
      have hfound := hpres (q + (n : Int) + 1) (by omega) (by push_cast; omega)
      have hu := herr (q + (n : Int) + 1) (by omega) (by push_cast; omega)
      have hname := (lookupLast_name _ _ _ hfound).1
      have hunsch := unschedule_ok env (jbf (q + (n : Int) + 1)) s
        (by rw [hname]; exact hu.1) hu.2
      have hstep2 : scaleDown env app v t existing q (n + 1) s
          = scaleDown env app v t existing q n
              ({ cluster := s.cluster.filter
                   (fun sj => sj.Name != jobName (jbf (q + (n : Int) + 1)))
                 tracked := s.tracked.filter (fun x => x != jbf (q + (n : Int) + 1))
                 procs := s.procs
                 trace := s.trace ++ [Ev.unschedule (jobName (jbf (q + (n : Int) + 1))),
                   Ev.repoRemove (jbf (q + (n : Int) + 1))] }) := by
        simp only [scaleDown, hfound]
        rw [hunsch]
      obtain ⟨ih1, ih2, ih3, ih4, ih5⟩ := ih _ hqm hin
        (fun i h1 h2 => hpres i h1 (by push_cast at h2 ⊢; omega))
        hmiss
        (fun i h1 h2 => herr i h1 (by push_cast at h2 ⊢; omega))
      have hdr : descRange (q + ((n + 1 : Nat) : Int)) m
          = (q + (n : Int) + 1) :: descRange (q + (n : Int)) m := by
        have e1 : q + ((n + 1 : Nat) : Int) = q + (n : Int) + 1 := by push_cast; ring
        rw [e1, descRange_cons _ _ (by omega)]
        rw [show q + (n : Int) + 1 - 1 = q + (n : Int) by ring]
      refine ⟨?_, ?_, ?_, ?_, ?_⟩
      · rw [hstep2]
        exact ih1
      · rw [hstep2, ih2, hdr, List.flatMap_cons, hname]
        simp [List.append_assoc]
      · intro j0 hj0 havoid
        rw [hstep2]
        refine ih3 j0 ?_ (fun i h1 h2 => havoid i h1 (by push_cast at h2 ⊢; omega))
        refine List.mem_filter.mpr ⟨hj0, ?_⟩
        rw [bne_iff_ne]
        exact havoid (q + (n : Int) + 1) (by omega) (by push_cast; omega)
      · intro j0 hj0
        rw [hstep2] at hj0
        exact List.mem_of_mem_filter (ih4 j0 hj0)
      · rw [hstep2, ih5]

/-- C4: for a scale-down where the tracked job for instance `m` is missing
(and present for every higher index up to the current quantity, with those
unschedules succeeding), `scaleProcess` processes indices from the current
quantity down to `m` in strictly descending order (the trace is the listing
call followed by exactly the unschedule/remove pairs of `descRange`), returns
the job-not-found error naming the missing job's derived name, unschedules the
higher-indexed instances, leaves every other tracked job in place, mutates
nothing in the Process record and performs no Process Repository update. -/
theorem scaleProcess_missingJob (env : Env) (rel : Release) (cfg : Config)
    (slug : Slug) (t : Str) (p : Process) (q m : Int) (s : St) (jbf : Int → Job)
    (hq : q < p.Quantity) (hm1 : q < m) (hm2 : m ≤ p.Quantity)
    (hlist : env.listErr rel.AppName = none)
    (hpres : ∀ i : Int, m < i → i ≤ p.Quantity →
      lookupLast (existingOf s rel.AppName) (newJobName rel.AppName rel.Ver t i)
        = some (jbf i))
    (hmiss : lookupLast (existingOf s rel.AppName)
      (newJobName rel.AppName rel.Ver t m) = none)
    (herr : ∀ i : Int, m < i → i ≤ p.Quantity →
      env.unschedErr (newJobName rel.AppName rel.Ver t i) = none ∧
        env.removeErr (jbf i) = none) :
    (scaleProcess env rel cfg slug t p q s).1
      = some (Err.jobNotFound (newJobName rel.AppName rel.Ver t m)) ∧
    (scaleProcess env rel cfg slug t p q s).2.1 = p ∧
    (scaleProcess env rel cfg slug t p q s).2.2.trace
      = s.trace ++ Ev.repoList rel.AppName ::
          (descRange p.Quantity m).flatMap
            (fun i => [Ev.unschedule (newJobName rel.AppName rel.Ver t i),
                       Ev.repoRemove (jbf i)]) ∧
    (∀ j0 ∈ s.tracked, (∀ i : Int, m < i → i ≤ p.Quantity → j0 ≠ jbf i) →
      j0 ∈ (scaleProcess env rel cfg slug t p q s).2.2.tracked) ∧
    (∀ j0 ∈ (scaleProcess env rel cfg slug t p q s).2.2.tracked, j0 ∈ s.tracked) ∧
    (scaleProcess env rel cfg slug t p q s).2.2.procs = s.procs := by
  have hnot1 : ¬ p.Quantity < q := by omega
  have hA : upPhase env rel cfg slug t p q s = (none, s) := by
    rw [upPhase, if_neg hnot1]
  have hcast : q + (((p.Quantity - q).toNat : Nat) : Int) = p.Quantity := by omega
  obtain ⟨L1, L2, L3, L4, L5⟩ := scaleDown_missing env rel.AppName rel.Ver t
    (existingOf s rel.AppName) q m jbf ((p.Quantity - q).toNat)
    (logEv s (Ev.repoList rel.AppName)) hm1 (by omega)
    (fun i h1 h2 => hpres i h1 (by omega)) hmiss
    (fun i h1 h2 => herr i h1 (by omega))
  rw [hcast] at L2
  have hSD : scaleDown env rel.AppName rel.Ver t (existingOf s rel.AppName) q
      ((p.Quantity - q).toNat) (logEv s (Ev.repoList rel.AppName))
      = (some (Err.jobNotFound (newJobName rel.AppName rel.Ver t m)),
         (scaleDown env rel.AppName rel.Ver t (existingOf s rel.AppName) q
           ((p.Quantity - q).toNat) (logEv s (Ev.repoList rel.AppName))).2) := by
    rw [← L1]
  have hB : downPhase env rel t p q s
      = (some (Err.jobNotFound (newJobName rel.AppName rel.Ver t m)),
         (scaleDown env rel.AppName rel.Ver t (existingOf s rel.AppName) q
           ((p.Quantity - q).toNat) (logEv s (Ev.repoList rel.AppName))).2) := by
    rw [downPhase, if_pos hq, hlist]
    exact hSD
  refine ⟨?_, ?_, ?_, ?_, ?_, ?_⟩
  · simp only [scaleProcess, hA, hB]
  · simp only [scaleProcess, hA, hB]
  · simp only [scaleProcess, hA, hB]
    rw [L2]
    simp [logEv, List.append_assoc]
  · intro j0 hj0 havoid
    simp only [scaleProcess, hA, hB]
    exact L3 j0 hj0 (fun i h1 h2 => havoid i h1 (by omega))
  · intro j0 hj0
    simp only [scaleProcess, hA, hB] at hj0
    exact L4 j0 hj0
  · simp only [scaleProcess, hA, hB]
    exact L5

theorem scaleProcess_missingJob_witness :
    (scaleProcess env0 rel0 cfg0 slug0 [119] p0 0 st3).1
      = some (Err.jobNotFound (newJobName [97] 1 [119] 1)) :=
  (scaleProcess_missingJob env0 rel0 cfg0 slug0 [119] p0 0 1 st3 jb
    (by decide) (by decide) (by decide) rfl
    (fun i h1 h2 => by
      have hq2 : p0.Quantity = 2 := rfl
      have hi : i = 2 := by omega
      subst hi
      decide)
    (by decide)
    (fun i h1 h2 => ⟨rfl, rfl⟩)).1

/-- C7: `JobStatesByApp` fails exactly when the Job Repository listing or the
scheduler's snapshot fetch fails (returning that error); when both succeed it
returns one `JobState` per tracked Job, in order (the `Job` fields are exactly
the tracked jobs); a job whose name is carried by some snapshot entry gets
that entry's machine identifier and status, and one whose name no snapshot
entry carries gets the `unknown`/`unknown` sentinels. -/
theorem jobStatesByApp_spec (env : Env) (app : Str) (s : St) :
    (∀ e, env.listErr app = some e →
      JobStatesByApp env app s = (Except.error e, logEv s (Ev.repoList app))) ∧
    (env.listErr app = none → ∀ e, env.statesErr = some e →
      JobStatesByApp env app s
        = (Except.error e, logEv (logEv s (Ev.repoList app)) Ev.jobStates)) ∧
    (env.listErr app = none → env.statesErr = none →
      ∃ l, JobStatesByApp env app s
          = (Except.ok l, logEv (logEv s (Ev.repoList app)) Ev.jobStates) ∧
        l.map JobState.Job = existingOf s app ∧
        ∀ js ∈ l, js.Name = jobName js.Job ∧
          ((∃ e ∈ env.states, e.Name = jobName js.Job ∧
              js.MachineID = e.MachineID ∧ js.State = e.State) ∨
           ((∀ e ∈ env.states, e.Name ≠ jobName js.Job) ∧
              js.MachineID = unknownStr ∧ js.State = unknownStr))) := by
  refine ⟨?_, ?_, ?_⟩
  · intro e he
    simp only [JobStatesByApp, he]
  · intro h1 e he
    simp only [JobStatesByApp, h1, he]
  · intro h1 h2
    refine ⟨(existingOf s app).map (fun j =>
      match lookupLastS env.states (jobName j) with
      | some e =>
        { Job := j, Name := jobName j, MachineID := e.MachineID, State := e.State }
      | none =>
        { Job := j, Name := jobName j, MachineID := unknownStr,
          State := unknownStr }), ?_, ?_, ?_⟩
    · simp only [JobStatesByApp, h1, h2]
    · rw [List.map_map]
      refine Eq.trans (List.map_congr_left ?_) (List.map_id _)
      intro j _
      simp only [Function.comp]
      cases hl : lookupLastS env.states (jobName j) <;> simp [hl]
    · intro js hjs
      rw [List.mem_map] at hjs
      obtain ⟨j, hj, hjeq⟩ := hjs
      subst hjeq
      cases hl : lookupLastS env.states (jobName j) with
      | some e =>
        obtain ⟨hmem, hname⟩ := lookupLastS_mem env.states (jobName j) e hl
        exact ⟨rfl, Or.inl ⟨e, hmem, hname, rfl, rfl⟩⟩
      | none =>
        exact ⟨rfl, Or.inr ⟨lookupLastS_none env.states (jobName j) hl, rfl, rfl⟩⟩

theorem jobStatesByApp_spec_witness :
    env0.listErr [97] = none ∧ env0.statesErr = none ∧
    ∃ l, JobStatesByApp env0 [97] st2
        = (Except.ok l, logEv (logEv st2 (Ev.repoList [97])) Ev.jobStates) ∧
      l.map JobState.Job = existingOf st2 [97] ∧
      ∀ js ∈ l, js.Name = jobName js.Job ∧
        ((∃ e ∈ env0.states, e.Name = jobName js.Job ∧
            js.MachineID = e.MachineID ∧ js.State = e.State) ∨
         ((∀ e ∈ env0.states, e.Name ≠ jobName js.Job) ∧
            js.MachineID = unknownStr ∧ js.State = unknownStr)) :=
  ⟨rfl, rfl, (jobStatesByApp_spec env0 [97] st2).2.2 rfl rfl⟩

theorem fset_keys (f : Formation) (t : Str) (p : Process) (x : Str) :
    (flookup (fset f t p) x).isSome = (flookup f x).isSome := by
  induction f with
  | nil => rfl
  | cons e es ih =>
    simp only [fset, flookup] at ih ⊢
    rw [List.map_cons, List.find?, List.find?]
    by_cases he : e.1 = t
    · have hbeq : (e.1 == t) = true := beq_iff_eq.mpr he
      by_cases hx : e.1 = x
      · have h1 : (t == x) = true := beq_iff_eq.mpr (by rw [← he]; exact hx)
        have h2 : (e.1 == x) = true := beq_iff_eq.mpr hx
        simp [hbeq, h1, h2]
      · have h1 : (t == x) = false := by
          rw [Bool.eq_false_iff]
          intro hcon
          exact hx (by rw [he]; exact beq_iff_eq.mp hcon)
        have h2 : (e.1 == x) = false := by
          rw [Bool.eq_false_iff]
          intro hcon
          exact hx (beq_iff_eq.mp hcon)
        simpa [hbeq, h1, h2] using ih
    · have hbeq : (e.1 == t) = false := by
        rw [Bool.eq_false_iff]
        intro hcon
        exact he (beq_iff_eq.mp hcon)
      by_cases hx : e.1 = x
      · have h2 : (e.1 == x) = true := beq_iff_eq.mpr hx
        simp [hbeq, h2]
      · have h2 : (e.1 == x) = false := by
          rw [Bool.eq_false_iff]
          intro hcon
          exact hx (beq_iff_eq.mp hcon)
        simpa [hbeq, h2] using ih

/-- C8: a process type present in the desired-quantity map but absent from
the Formation has no effect at all and causes no failure: `ScaleRelease` on
any map equals `ScaleRelease` on the map filtered to the types present in the
Formation, and on a single absent entry it returns success with the world and
formation untouched. -/
theorem scaleRelease_ignores_absent (env : Env) (rel : Release) (cfg : Config)
    (slug : Slug) :
    (∀ (f : Formation) (qm : ProcessQuantityMap) (s : St),
      ScaleRelease env rel cfg slug f qm s
        = ScaleRelease env rel cfg slug f
            (qm.filter (fun e => (flookup f e.1).isSome)) s) ∧
    (∀ (f : Formation) (t : Str) (q : Int) (s : St), flookup f t = none →
      ScaleRelease env rel cfg slug f [(t, q)] s = (none, f, s)) := by
  constructor
  · intro f qm
    induction qm generalizing f with
    | nil => intro s; rfl
    | cons e rest ih =>
      intro s
      rcases e with ⟨t, q⟩
      cases hf : flookup f t with
      | none =>
        have hpred : ((flookup f t).isSome) = false := by rw [hf]; rfl
        rw [List.filter_cons]
        simp only [hpred, Bool.false_eq_true, if_false]
        simp only [ScaleRelease, hf]
        exact ih f s
      | some p =>
        have hpred : ((flookup f t).isSome) = true := by rw [hf]; rfl
        rw [List.filter_cons]
        simp only [hpred, if_true]
        simp only [ScaleRelease, hf]
        rcases hsp : scaleProcess env rel cfg slug t p q s with ⟨e1, p1, s1⟩
        cases e1 with
        | some err => rfl
        | none =>
          show ScaleRelease env rel cfg slug (fset f t p1) rest s1
              = ScaleRelease env rel cfg slug (fset f t p1)
                  (rest.filter (fun e => (flookup f e.1).isSome)) s1
          rw [ih (fset f t p1) s1]
          congr 1
          refine List.filter_congr ?_
          intro e2 _
          rw [fset_keys]
  · intro f t q s hf
    simp only [ScaleRelease, hf]

theorem scaleRelease_ignores_absent_witness :
    flookup f0 [122] = none ∧
    ScaleRelease env0 rel0 cfg0 slug0 f0 [([122], 5)] s0 = (none, f0, s0) :=
  ⟨by decide,
    (scaleRelease_ignores_absent env0 rel0 cfg0 slug0).2 f0 [122] 5 s0 (by decide)⟩
